import Mathlib

/-!
# Nebula screensaver: field hashing, colour packing and frame tiling

A shallow embedding of `src/core/field.cpp` and of the frame loop of
`src/core/screensaver.cpp`.

* `uint8_t`, `uint32_t` and `uint64_t` values are natural numbers; every
  assignment to such a variable truncates explicitly (`u8`, `u32`, `u64`).
* The loops of the frame loop run over `int` indices that never become
  negative; they are natural numbers here, and the loop
  `for (int i = a; i < b; ++i)` visits `List.range' a (b - a)`.  The `int`
  expressions `W+TS-1`, `y0+TS` and `y*W` agree with the natural-number ones
  as long as they fit 31 bits, which window sizes do.
* `float` values are rationals and the arithmetic on them is exact: the
  rounding of binary32 is not modelled.  Literals that binary32 cannot
  represent stand at their binary32 values.  The conversion `(int)v`
  truncates toward zero, without a range limit.
* The frame buffer is a list of pixel values; a traversal is the list of its
  stores `(index, value)` in program order, and `store` applies them.
-/

namespace Nebula

/-! ## Machine integers -/

/-- Conversion to `uint8_t`. -/
def u8 (n : Nat) : Nat := n % 2 ^ 8

/-- Conversion to `uint32_t`. -/
def u32 (n : Nat) : Nat := n % 2 ^ 32

/-- Conversion to `uint64_t`. -/
def u64 (n : Nat) : Nat := n % 2 ^ 64

/-! ## Configuration (`include/core/app_config.hpp`) -/

/-- The record `AppConfig`, with the defaults of the header (`0.15f` is the
binary32 value `10066330 / 2^26`). -/
structure AppConfig where
  width : Int := 640
  height : Int := 480
  n : Int := 8
  lacunarity : ℚ := 2
  persistence : ℚ := 1 / 2
  zspeed : ℚ := 10066330 / 2 ^ 26
  seed : Nat := 0
  vsync : Bool := false
  show_fps : Bool := true
  palette : String := "nebula"
  window_title : String := "Nebulae — OpenMP Screensaver (UVG)"
  omp_schedule : String := "static"
  omp_chunk : Int := 32
  render_scale : ℚ := 1
  deriving DecidableEq

/-! ## `NebulaField` (`src/core/field.cpp`) -/

/-- The method `NebulaField::hash_u32`.  The object enters through its field
`cfg_`, the only member initialised when the constructor calls the method.
Each compound assignment to the `uint32_t` variable `x` truncates to 32 bits. -/
def hash_u32 (cfg_ : AppConfig) (x : Nat) : Nat :=
  let x := u32 (x ^^^ cfg_.seed)
  let x := u32 (x * 0x27d4eb2d)
  let x := u32 (x ^^^ (x >>> 15))
  let x := u32 (x * 0x85ebca6b)
  let x := u32 (x ^^^ (x >>> 13))
  x

/-- The integer mix as the specification words it: xor with the seed, multiply
by `0x27d4eb2d`, xor-shift right 15, multiply by `0x85ebca6b`, xor-shift right
13, the products taken modulo `2^32`. -/
def hash_mix (seed x : Nat) : Nat :=
  let a := x ^^^ seed
  let b := (a * 0x27d4eb2d) % 2 ^ 32
  let c := b ^^^ (b >>> 15)
  let d := (c * 0x85ebca6b) % 2 ^ 32
  d ^^^ (d >>> 13)

/-- The method `NebulaField::pack_rgba`: ARGB8888, alpha in the high byte.  The
four arguments are `uint8_t`, widened to `uint32_t` before the shift. -/
def pack_rgba (r g b a : Nat) : Nat :=
  u32 (u32 a <<< 24) ||| u32 (u32 r <<< 16) ||| u32 (u32 g <<< 8) ||| u32 b

/-- The lambda `lift` of the constructor: `uint8_t(50 + (c % 180))`. -/
def lift (c : Nat) : Nat := u8 (50 + c % 180)

/-- The object `NebulaField`: the configuration and the six base colour
channels. -/
structure NebulaField where
  cfg_ : AppConfig
  baseR1 : Nat
  baseG1 : Nat
  baseB1 : Nat
  baseR2 : Nat
  baseG2 : Nat
  baseB2 : Nat
  deriving DecidableEq

/-- The constructor `NebulaField::NebulaField`.  The reading of
`std::chrono::high_resolution_clock` is the explicit input `now`
(a `uint64_t`); `cfg_.seed * 1234u` is an `unsigned int` product. -/
def NebulaField.new (cfg : AppConfig) (now : Nat) : NebulaField :=
  let now := u64 now
  let h1 := hash_u32 cfg (u32 (now ^^^ u32 (cfg.seed * 1234)))
  let h2 := hash_u32 cfg (u32 ((now >>> 32) ^^^ u32 (cfg.seed * 5678)))
  { cfg_ := cfg
    baseR1 := lift (u8 (h1 &&& 0xFF))
    baseG1 := lift (u8 ((h1 >>> 8) &&& 0xFF))
    baseB1 := lift (u8 ((h1 >>> 16) &&& 0xFF))
    baseR2 := lift (u8 (h2 &&& 0xFF))
    baseG2 := lift (u8 ((h2 >>> 8) &&& 0xFF))
    baseB2 := lift (u8 ((h2 >>> 16) &&& 0xFF)) }

/-- The two base colours of a field, as RGB triples. -/
def NebulaField.baseColors (f : NebulaField) : (Nat × Nat × Nat) × (Nat × Nat × Nat) :=
  ((f.baseR1, f.baseG1, f.baseB1), (f.baseR2, f.baseG2, f.baseB2))

/-! ## Colour helpers (`src/core/field.cpp`) -/

/-- The function `std::max` on `float`: `(a < b) ? b : a`. -/
def fmax (a b : ℚ) : ℚ := if a < b then b else a

/-- The function `std::min` on `float`: `(b < a) ? b : a`. -/
def fmin (a b : ℚ) : ℚ := if b < a then b else a

/-- The outputs `h`, `s`, `l` of `rgb_to_hsl`, and a record of the run: the
divisors of the divisions the function executes after the achromatic test
(the one that yields `s`, then the one by `d = mx - mn` that yields `h`). -/
structure Hsl where
  h : ℚ
  s : ℚ
  l : ℚ
  divisors : List ℚ
  deriving DecidableEq

/-- The function `rgb_to_hsl`; `R`, `G`, `B` are `uint8_t`. -/
def rgb_to_hsl (R G B : Nat) : Hsl :=
  let r : ℚ := R / 255
  let g : ℚ := G / 255
  let b : ℚ := B / 255
  let mx := fmax r (fmax g b)
  let mn := fmin r (fmin g b)
  let l := (mx + mn) * (1 / 2)
  if mx = mn then { h := 0, s := 0, l := l, divisors := [] }
  else
    let d := mx - mn
    let sden := if l > 1 / 2 then 2 - mx - mn else mx + mn
    let s := d / sden
    let h :=
      if mx = r then (g - b) / d + (if g < b then 6 else 0)
      else if mx = g then (b - r) / d + 2
      else (r - g) / d + 4
    { h := h * 60, s := s, l := l, divisors := [sden, d] }

/-! ## The frame loop (`render_loop`, `src/core/screensaver.cpp`) -/

/-- The function `std::clamp(v, lo, hi)` on `float`. -/
def clampf (v lo hi : ℚ) : ℚ := if v < lo then lo else if hi < v then hi else v

/-- The binary32 value of the literal `0.3f`. -/
def lit_0_3f : ℚ := 10066330 / 2 ^ 25

/-- The binary32 value of the literal `0.999f`. -/
def lit_0_999f : ℚ := 16760439 / 2 ^ 24

/-- The line `const float s = std::clamp(cfg.render_scale, 0.3f, 1.0f);`. -/
def render_s (cfg : AppConfig) : ℚ := clampf cfg.render_scale lit_0_3f 1

/-- The test `s >= 0.999f` that selects the full-resolution branch. -/
def full_res (cfg : AppConfig) : Bool := decide (lit_0_999f ≤ render_s cfg)

/-- The tile counts `ntx = (W+TS-1)/TS` and `nty = (H+TS-1)/TS`. -/
def ntiles (W TS : Nat) : Nat := (W + TS - 1) / TS

/-- The rectangle of one tile: columns `x0 ≤ x < x1`, rows `y0 ≤ y < y1`. -/
structure Tile where
  x0 : Nat
  y0 : Nat
  x1 : Nat
  y1 : Nat
  deriving DecidableEq, Repr

/-- The bounds computed in the body of the tile loops:
`y0 = ty*TS, y1 = min(H, y0+TS), x0 = tx*TS, x1 = min(W, x0+TS)`. -/
def tileAt (W H TS tx ty : Nat) : Tile :=
  { y0 := ty * TS, y1 := min H (ty * TS + TS), x0 := tx * TS, x1 := min W (tx * TS + TS) }

/-- The pixel `(x, y)` is visited by the loops `for y in [y0,y1)`, `for x in [x0,x1)`. -/
def Tile.contains (T : Tile) (x y : Nat) : Bool :=
  decide (T.x0 ≤ x ∧ x < T.x1 ∧ T.y0 ≤ y ∧ y < T.y1)

/-- The pairs `(ty, tx)` in the order of the collapsed loops
`for ty in [0,nty)`, `for tx in [0,ntx)`. -/
def tileOrder (W H TS : Nat) : List (Nat × Nat) :=
  (List.range (ntiles H TS)).flatMap fun ty => (List.range (ntiles W TS)).map fun tx => (ty, tx)

/-- The tiles the frame loop generates, in loop order. -/
def tiles (W H TS : Nat) : List Tile :=
  (tileOrder W H TS).map fun p => tileAt W H TS p.2 p.1

/-- The stores of one tile, in program order: `row[x] = sample_pixel(x,y,t)` with
`row = pixels.data() + y*W`, a store of the value at index `y*W + x`. -/
def tile_writes {α : Type} (sample : Nat → Nat → α) (W : Nat) (T : Tile) : List (Nat × α) :=
  (List.range' T.y0 (T.y1 - T.y0)).flatMap fun y =>
    (List.range' T.x0 (T.x1 - T.x0)).map fun x => (y * W + x, sample x y)

/-- The stores of the tiled traversal when the tiles `(ty, tx)` are processed
in the given order. -/
def tiled_writes {α : Type} (sample : Nat → Nat → α) (W H TS : Nat)
    (order : List (Nat × Nat)) : List (Nat × α) :=
  order.flatMap fun p => tile_writes sample W (tileAt W H TS p.2 p.1)

/-- The stores of the sequential row sweep `for y in [0,H)`, `for x in [0,W)`. -/
def seq_writes {α : Type} (sample : Nat → Nat → α) (W H : Nat) : List (Nat × α) :=
  (List.range H).flatMap fun y => (List.range W).map fun x => (y * W + x, sample x y)

/-- The frame buffer after a sequence of stores. -/
def store {α : Type} (pixels : List α) (ws : List (Nat × α)) : List α :=
  ws.foldl (fun buf w => buf.set w.1 w.2) pixels

/-! ## Normalising the configuration (`src/core/app_config.cpp`) -/

/-- The helper `clampi` of `app_config.cpp`: `std::max(lo, std::min(hi, v))`. -/
def AppConfig.clampi (v lo hi : Int) : Int := max lo (min hi v)

/-- The helper `clampf` of `app_config.cpp`: `std::max(lo, std::min(hi, v))`. -/
def AppConfig.clampf (v lo hi : ℚ) : ℚ := fmax lo (fmin hi v)

/-- The binary32 value of the literal `0.05f`. -/
def lit_0_05f : ℚ := 13421773 / 2 ^ 28

/-- The binary32 value of the literal `0.95f`. -/
def lit_0_95f : ℚ := 15938355 / 2 ^ 24

/-- The names accepted for `--schedule`. -/
def schedules : List String := ["static", "dynamic", "guided", "auto"]

/-- The names accepted for `--palette`. -/
def palettes : List String := ["nebula", "inferno", "ice", "bw"]

/-- The value `r` is `v` clamped to the range `[lo, hi]`. -/
def IsClamped {α : Type} [LinearOrder α] (lo hi v r : α) : Prop :=
  (v < lo → r = lo) ∧ (hi < v → r = hi) ∧ (lo ≤ v → v ≤ hi → r = v)

/-- The contract on a configuration that the core assumes (specification,
sections 3 and 7), with the bounds `0.05`, `0.95` and `0.3` at their binary32
values. -/
def PreClamped (c : AppConfig) : Prop :=
  160 ≤ c.width ∧ 120 ≤ c.height ∧ (1 ≤ c.n ∧ c.n ≤ 12) ∧
  (3 / 2 ≤ c.lacunarity ∧ c.lacunarity ≤ 3) ∧
  (lit_0_05f ≤ c.persistence ∧ c.persistence ≤ lit_0_95f) ∧
  (0 ≤ c.zspeed ∧ c.zspeed ≤ 5) ∧
  (lit_0_3f ≤ c.render_scale ∧ c.render_scale ≤ 1) ∧
  (1 ≤ c.omp_chunk ∧ c.omp_chunk ≤ 512) ∧
  c.omp_schedule ∈ schedules ∧ c.palette ∈ palettes

/-- The tile size of `render_loop`:
`int TS = (cfg.omp_chunk>0 ? cfg.omp_chunk : 32); TS = std::max(8, std::min(64, TS));`. -/
def tile_size (cfg : AppConfig) : Int :=
  let TS := if cfg.omp_chunk > 0 then cfg.omp_chunk else 32
  max 8 (min 64 TS)

/-! ## The inverse of the integer mix -/

/-- Undoes `x ^= x >> 15` on a 32-bit value. -/
def unxorshift15 (y : Nat) : Nat := y ^^^ (y >>> 15) ^^^ (y >>> 30)

/-- Undoes `x ^= x >> 13` on a 32-bit value. -/
def unxorshift13 (y : Nat) : Nat := y ^^^ (y >>> 13) ^^^ (y >>> 26)

/-- The steps of `hash_u32` undone in reverse order; `2781581891` and
`4218002597` are the inverses of `0x85ebca6b` and `0x27d4eb2d` modulo `2^32`. -/
def hash_u32_inv (cfg_ : AppConfig) (y : Nat) : Nat :=
  let y := unxorshift13 y
  let y := u32 (y * 2781581891)
  let y := unxorshift15 y
  let y := u32 (y * 4218002597)
  y ^^^ cfg_.seed

/-- The body of `rgb_to_hsl` after its first line, on the channel values
`r = R / 255.f`, `g = G / 255.f`, `b = B / 255.f`. -/
def hsl_of_channels (r g b : ℚ) : Hsl :=
  let mx := fmax r (fmax g b)
  let mn := fmin r (fmin g b)
  let l := (mx + mn) * (1 / 2)
  if mx = mn then { h := 0, s := 0, l := l, divisors := [] }
  else
    let d := mx - mn
    let sden := if l > 1 / 2 then 2 - mx - mn else mx + mn
    let s := d / sden
    let h :=
      if mx = r then (g - b) / d + (if g < b then 6 else 0)
      else if mx = g then (b - r) / d + 2
      else (r - g) / d + 4
    { h := h * 60, s := s, l := l, divisors := [sden, d] }

/-! ## From HSL back to RGB (`src/core/field.cpp`) -/

/-- The conversion `(int)v` of a `float`: truncation toward zero. -/
def to_int (v : ℚ) : Int := if 0 ≤ v then ⌊v⌋ else ⌈v⌉

/-- The function `std::fmod(x, y)`: `x - n*y` where `n` is `x/y` truncated
toward zero, so the result has the sign of `x`.  The library function is exact
(it never rounds). -/
def fmod (x y : ℚ) : ℚ := x - (to_int (x / y) : ℚ) * y

/-- The first statement of `hsl_to_rgb`, `h = std::fmod(h < 0 ? h + 360.f : h, 360.f)`:
the hue that the rest of the function uses. -/
def hsl_to_rgb_hue (h : ℚ) : ℚ := fmod (if h < 0 then h + 360 else h) 360

/-- The function `hlerp`; the constants `1.f/6.f`, `1.f/2.f` and `2.f/3.f` are
at their binary32 values. -/
def hlerp (p q t : ℚ) : ℚ :=
  let t := if t < 0 then t + 1 else t
  let t := if t > 1 then t - 1 else t
  if t < 11184811 / 2 ^ 26 then p + (q - p) * 6 * t
  else if t < 1 / 2 then q
  else if t < 11184811 / 2 ^ 24 then p + (q - p) * (11184811 / 2 ^ 24 - t) * 6
  else p

/-- The conversion `uint8_t(std::clamp(c, 0.f, 1.f) * 255.f)`. -/
def channel_byte (c : ℚ) : Nat := u8 (to_int (clampf c 0 1 * 255)).toNat

/-- The function `hsl_to_rgb`, returning `(R, G, B)`; the constant `1.f/3.f` is
at its binary32 value. -/
def hsl_to_rgb (h s l : ℚ) : Nat × Nat × Nat :=
  let h := hsl_to_rgb_hue h
  let H := h / 360
  let q := if l < 1 / 2 then l * (1 + s) else l + s - l * s
  let p := 2 * l - q
  let r := hlerp p q (H + 11184811 / 2 ^ 25)
  let g := hlerp p q H
  let b := hlerp p q (H - 11184811 / 2 ^ 25)
  (channel_byte r, channel_byte g, channel_byte b)

/-! ## Value noise and fractal sums (`src/core/field.cpp`) -/

/-- The sizes `SW = std::max(1,(int)std::floor(W*s))` and
`SH = std::max(1,(int)std::floor(H*s))`. -/
def lowres_dim (W : Int) (s : ℚ) : Int := max 1 ⌊(W : ℚ) * s⌋

/-- The source coordinates `XX = std::min(W-1,(int)((sx+0.5f)/s))` and
`YY = std::min(H-1,(int)((sy+0.5f)/s))`. -/
def src_coord (W : Int) (s : ℚ) (sx : Int) : Int :=
  min (W - 1) (to_int (((sx : ℚ) + 1 / 2) / s))

/-- The low-resolution coordinates `sx = std::min(SW-1,(int)(x*s))` and
`sy = std::min(SH-1,(int)(y*s))` read by the upscale. -/
def low_coord (SW : Int) (s : ℚ) (x : Int) : Int := min (SW - 1) (to_int ((x : ℚ) * s))

theorem u32_of_lt {n : Nat} (h : n < 2 ^ 32) : u32 n = n := Nat.mod_eq_of_lt h

theorem u32_lt (n : Nat) : u32 n < 2 ^ 32 := Nat.mod_lt _ (by norm_num)

theorem xor_shiftRight_lt {n : Nat} (k : Nat) (h : n < 2 ^ 32) : n ^^^ (n >>> k) < 2 ^ 32 :=
  Nat.xor_lt_two_pow h
    (lt_of_le_of_lt (by rw [Nat.shiftRight_eq_div_pow]; exact Nat.div_le_self _ _) h)

/-- C2. For every configuration with a 32-bit seed and every 32-bit `x`,
`hash_u32` is the fixed integer mix of the specification (xor with the seed,
times `0x27d4eb2d`, xor-shift 15, times `0x85ebca6b`, xor-shift 13, modulo
`2^32`) of `x` and the seed alone, and the result is a 32-bit value. -/
theorem hash_u32_eq_hash_mix (cfg : AppConfig) (x : Nat) (hs : cfg.seed < 2 ^ 32)
    (hx : x < 2 ^ 32) : hash_u32 cfg x = hash_mix cfg.seed x ∧ hash_u32 cfg x < 2 ^ 32 := by
  have h1 : u32 (x ^^^ cfg.seed) = x ^^^ cfg.seed := u32_of_lt (Nat.xor_lt_two_pow hx hs)
  have key : hash_u32 cfg x = hash_mix cfg.seed x := by
    simp only [hash_u32, hash_mix, h1]
    have hb : (x ^^^ cfg.seed) * 0x27d4eb2d % 2 ^ 32 < 2 ^ 32 := Nat.mod_lt _ (by norm_num)
    simp only [u32] at *
    rw [Nat.mod_eq_of_lt (xor_shiftRight_lt 15 hb)]
    have hd : ((x ^^^ cfg.seed) * 0x27d4eb2d % 2 ^ 32 ^^^
        ((x ^^^ cfg.seed) * 0x27d4eb2d % 2 ^ 32) >>> 15) * 0x85ebca6b % 2 ^ 32 < 2 ^ 32 :=
      Nat.mod_lt _ (by norm_num)
    rw [Nat.mod_eq_of_lt (xor_shiftRight_lt 13 hd)]
  refine ⟨key, ?_⟩
  simp only [hash_u32]
  exact u32_lt _

theorem hash_u32_eq_hash_mix_witness :
    hash_u32 { seed := 42, width := 8, height := 8, n := 4 } 7
        = hash_mix (AppConfig.seed { seed := 42, width := 8, height := 8, n := 4 }) 7 ∧
      hash_u32 { seed := 42, width := 8, height := 8, n := 4 } 7 < 2 ^ 32 :=
  hash_u32_eq_hash_mix { seed := 42, width := 8, height := 8, n := 4 } 7 (by decide) (by decide)

theorem pack_rgba_eq_sum (r g b a : Nat) (hr : r < 256) (hg : g < 256) (hb : b < 256)
    (ha : a < 256) : pack_rgba r g b a = a * 2 ^ 24 + r * 2 ^ 16 + g * 2 ^ 8 + b := by
  have e1 : u32 a = a := u32_of_lt (by omega)
  have e2 : u32 r = r := u32_of_lt (by omega)
  have e3 : u32 g = g := u32_of_lt (by omega)
  have e4 : u32 b = b := u32_of_lt (by omega)
  have s1 : u32 (a <<< 24) = a * 2 ^ 24 := by
    rw [Nat.shiftLeft_eq]; exact u32_of_lt (by omega)
  have s2 : u32 (r <<< 16) = r * 2 ^ 16 := by
    rw [Nat.shiftLeft_eq]; exact u32_of_lt (by omega)
  have s3 : u32 (g <<< 8) = g * 2 ^ 8 := by
    rw [Nat.shiftLeft_eq]; exact u32_of_lt (by omega)
  simp only [pack_rgba, e1, e2, e3, e4, s1, s2, s3]
  have o1 : a * 2 ^ 24 ||| r * 2 ^ 16 = (a * 2 ^ 8 + r) * 2 ^ 16 := by
    have h := Nat.mul_add_lt_is_or (show r * 2 ^ 16 < 2 ^ 24 by omega) a
    rw [show a * 2 ^ 24 = 2 ^ 24 * a by ring, ← h]; ring
  have o2 : (a * 2 ^ 8 + r) * 2 ^ 16 ||| g * 2 ^ 8 = ((a * 2 ^ 8 + r) * 2 ^ 8 + g) * 2 ^ 8 := by
    have h := Nat.mul_add_lt_is_or (show g * 2 ^ 8 < 2 ^ 16 by omega) (a * 2 ^ 8 + r)
    rw [show (a * 2 ^ 8 + r) * 2 ^ 16 = 2 ^ 16 * (a * 2 ^ 8 + r) by ring, ← h]; ring
  have o3 : ((a * 2 ^ 8 + r) * 2 ^ 8 + g) * 2 ^ 8 ||| b
      = ((a * 2 ^ 8 + r) * 2 ^ 8 + g) * 2 ^ 8 + b := by
    have h := Nat.mul_add_lt_is_or (show b < 2 ^ 8 by omega) ((a * 2 ^ 8 + r) * 2 ^ 8 + g)
    rw [show ((a * 2 ^ 8 + r) * 2 ^ 8 + g) * 2 ^ 8 = 2 ^ 8 * ((a * 2 ^ 8 + r) * 2 ^ 8 + g) by ring,
      ← h]
  rw [o1, o2, o3]; ring

/-- C5. For byte values `r`, `g`, `b`, the word `pack_rgba r g b 255` is a 32-bit
value whose bits 24-31 are 255, bits 16-23 are `r`, bits 8-15 are `g` and bits
0-7 are `b`: extracting the four bytes recovers `(r, g, b, 255)`. -/
theorem pack_rgba_bytes (r g b : Nat) (hr : r < 256) (hg : g < 256) (hb : b < 256) :
    pack_rgba r g b 255 < 2 ^ 32 ∧
    (pack_rgba r g b 255 >>> 24) &&& 0xFF = 255 ∧
    (pack_rgba r g b 255 >>> 16) &&& 0xFF = r ∧
    (pack_rgba r g b 255 >>> 8) &&& 0xFF = g ∧
    pack_rgba r g b 255 &&& 0xFF = b := by
  have hm : ∀ n : Nat, n &&& 0xFF = n % 2 ^ 8 := fun n => Nat.and_pow_two_sub_one_eq_mod n 8
  rw [pack_rgba_eq_sum r g b 255 hr hg hb (by norm_num)]
  simp only [hm, Nat.shiftRight_eq_div_pow]
  refine ⟨by omega, by omega, by omega, by omega, by omega⟩

theorem pack_rgba_bytes_witness :
    pack_rgba 18 52 86 255 < 2 ^ 32 ∧
    (pack_rgba 18 52 86 255 >>> 24) &&& 0xFF = 255 ∧
    (pack_rgba 18 52 86 255 >>> 16) &&& 0xFF = 18 ∧
    (pack_rgba 18 52 86 255 >>> 8) &&& 0xFF = 52 ∧
    pack_rgba 18 52 86 255 &&& 0xFF = 86 :=
  pack_rgba_bytes 18 52 86 (by norm_num) (by norm_num) (by norm_num)

/-- C1. The base colours are not a function of the seed alone: for one and the
same configuration (seed 42), the constructor run at two clock readings one
tick apart yields different first base colours. -/
theorem baseColors_depend_on_clock :
    (NebulaField.new { seed := 42 } 1700000000000000000).baseColors
      = ((179, 113, 61), (156, 109, 136)) ∧
    (NebulaField.new { seed := 42 } 1700000000000000001).baseColors
      = ((67, 88, 164), (156, 109, 136)) := by
  decide

/-! ### Tiling -/

theorem lt_ntiles_iff {n TS t : Nat} (hTS : 0 < TS) : t < ntiles n TS ↔ t * TS < n := by
  unfold ntiles
  rw [Nat.lt_iff_add_one_le, Nat.le_div_iff_mul_le hTS, Nat.add_mul, Nat.one_mul]
  omega

theorem chunks_upto (n TS : Nat) (hTS : 0 < TS) (k : Nat) (hk : k ≤ ntiles n TS) :
    ((List.range k).flatMap fun t => List.range' (t * TS) (min n (t * TS + TS) - t * TS))
      = List.range (min n (k * TS)) := by
  induction k with
  | zero => simp
  | succ k ih =>
    have hlt : k * TS < n := (lt_ntiles_iff hTS).1 hk
    rw [List.range_succ, List.flatMap_append, ih (Nat.le_of_succ_le hk), List.flatMap_singleton]
    have e1 : min n (k * TS) = k * TS := by omega
    have e2 : min n ((k + 1) * TS) = k * TS + (min n (k * TS + TS) - k * TS) := by
      rw [Nat.add_mul, Nat.one_mul]; omega
    rw [e1, e2, List.range_eq_range', List.range_eq_range']
    have := List.range'_append_1 0 (k * TS) (min n (k * TS + TS) - k * TS)
    rw [Nat.zero_add] at this
    exact this.trans (by rw [Nat.add_comm])

theorem chunks_cover (n TS : Nat) (hTS : 0 < TS) :
    ((List.range (ntiles n TS)).flatMap fun t =>
      List.range' (t * TS) (min n (t * TS + TS) - t * TS)) = List.range n := by
  rw [chunks_upto n TS hTS _ le_rfl]
  have h : ¬ ntiles n TS * TS < n := fun h => lt_irrefl _ ((lt_ntiles_iff hTS).2 h)
  congr 1; omega

theorem ntiles_eq_ceil (W TS : Nat) (hTS : 0 < TS) : (ntiles W TS : ℤ) = ⌈(W : ℚ) / TS⌉ := by
  have hq : (0 : ℚ) < TS := by exact_mod_cast hTS
  have hge : W ≤ ntiles W TS * TS :=
    not_lt.1 fun h => lt_irrefl _ ((lt_ntiles_iff hTS).2 h)
  symm
  rw [Int.ceil_eq_iff]
  constructor
  · rw [lt_div_iff₀ hq]
    rcases Nat.eq_zero_or_pos (ntiles W TS) with h0 | hpos
    · rw [h0]
      have : (0 : ℚ) ≤ W := by exact_mod_cast Nat.zero_le W
      push_cast
      linarith
    · obtain ⟨m, hm⟩ : ∃ m, ntiles W TS = m + 1 := ⟨ntiles W TS - 1, by omega⟩
      have hlt : m * TS < W := (lt_ntiles_iff hTS).1 (by omega)
      have hlt' : (m : ℚ) * TS < W := by exact_mod_cast hlt
      rw [hm]
      push_cast
      linarith
  · rw [div_le_iff₀ hq]
    exact_mod_cast hge

theorem tileOrder_eq_product (W H TS : Nat) :
    tileOrder W H TS = List.product (List.range (ntiles H TS)) (List.range (ntiles W TS)) := rfl

theorem contains_tileAt_iff {W H TS : Nat} (hTS : 0 < TS) {x y : Nat} (hx : x < W) (hy : y < H)
    (tx ty : Nat) : (tileAt W H TS tx ty).contains x y = true ↔ (ty, tx) = (y / TS, x / TS) := by
  have hxd := Nat.div_add_mod x TS
  have hyd := Nat.div_add_mod y TS
  have hxm := Nat.mod_lt x hTS
  have hym := Nat.mod_lt y hTS
  simp only [Tile.contains, tileAt, decide_eq_true_eq, Prod.mk.injEq]
  constructor
  · rintro ⟨h1, h2, h3, h4⟩
    have a1 : x < tx * TS + TS := lt_of_lt_of_le h2 (min_le_right _ _)
    have a2 : y < ty * TS + TS := lt_of_lt_of_le h4 (min_le_right _ _)
    constructor
    · apply le_antisymm
      · exact (Nat.le_div_iff_mul_le hTS).2 h3
      · have : y / TS < ty + 1 := (Nat.div_lt_iff_lt_mul hTS).2 (by rw [Nat.add_mul]; omega)
        omega
    · apply le_antisymm
      · exact (Nat.le_div_iff_mul_le hTS).2 h1
      · have : x / TS < tx + 1 := (Nat.div_lt_iff_lt_mul hTS).2 (by rw [Nat.add_mul]; omega)
        omega
  · rintro ⟨rfl, rfl⟩
    have b1 : x / TS * TS ≤ x := Nat.div_mul_le_self x TS
    have b2 : y / TS * TS ≤ y := Nat.div_mul_le_self y TS
    have c1 : x < x / TS * TS + TS := by rw [Nat.mul_comm] ; omega
    have c2 : y < y / TS * TS + TS := by rw [Nat.mul_comm] ; omega
    exact ⟨b1, lt_min hx c1, b2, lt_min hy c2⟩

/-- C3. For every width `W`, height `H` and tile size `TS > 0` (in particular
for `W, H > 0`) the tiles generated by the frame loop partition the image:
every pixel of `[0,W) × [0,H)` lies in exactly one generated tile, no tile
contains a pixel outside the image, and no tile is empty (the smaller right
and bottom edge tiles included); the loops run over `ceil(W/TS)` by
`ceil(H/TS)` tiles. -/
theorem tiles_partition (W H TS : Nat) (hTS : 0 < TS) :
    ((ntiles W TS : ℤ) = ⌈(W : ℚ) / TS⌉ ∧ (ntiles H TS : ℤ) = ⌈(H : ℚ) / TS⌉) ∧
    (∀ x y, x < W → y < H → (tiles W H TS).countP (fun T => T.contains x y) = 1) ∧
    (∀ T ∈ tiles W H TS, ∀ x y, T.contains x y = true → x < W ∧ y < H) ∧
    (∀ T ∈ tiles W H TS, T.x0 < T.x1 ∧ T.y0 < T.y1) := by
  refine ⟨⟨ntiles_eq_ceil W TS hTS, ntiles_eq_ceil H TS hTS⟩, ?_, ?_, ?_⟩
  · intro x y hx hy
    have hnd : (tileOrder W H TS).Nodup := by
      rw [tileOrder_eq_product]
      exact (List.nodup_range _).product (List.nodup_range _)
    have hmem : (y / TS, x / TS) ∈ tileOrder W H TS := by
      rw [tileOrder_eq_product, List.pair_mem_product, List.mem_range, List.mem_range,
        lt_ntiles_iff hTS, lt_ntiles_iff hTS]
      exact ⟨lt_of_le_of_lt (Nat.div_mul_le_self y TS) hy,
        lt_of_le_of_lt (Nat.div_mul_le_self x TS) hx⟩
    have hc : List.countP (fun p => decide (p = (y / TS, x / TS))) (tileOrder W H TS) = 1 :=
      List.count_eq_one_of_mem hnd hmem
    rw [tiles, List.countP_map, ← hc]
    apply List.countP_congr
    intro p _
    simp only [Function.comp_apply, decide_eq_true_eq]
    exact contains_tileAt_iff hTS hx hy p.2 p.1
  · intro T hT x y hc
    simp only [tiles, List.mem_map] at hT
    obtain ⟨p, _, rfl⟩ := hT
    simp only [Tile.contains, tileAt, decide_eq_true_eq] at hc
    exact ⟨lt_of_lt_of_le hc.2.1 (min_le_left _ _), lt_of_lt_of_le hc.2.2.2 (min_le_left _ _)⟩
  · intro T hT
    simp only [tiles, List.mem_map] at hT
    obtain ⟨p, hp, rfl⟩ := hT
    rw [tileOrder_eq_product] at hp
    obtain ⟨ty, tx⟩ := p
    rw [List.pair_mem_product, List.mem_range, List.mem_range, lt_ntiles_iff hTS,
      lt_ntiles_iff hTS] at hp
    simp only [tileAt]
    exact ⟨lt_min hp.2 (by omega), lt_min hp.1 (by omega)⟩

theorem tiles_partition_witness :
    ((ntiles 5 2 : ℤ) = ⌈((5 : ℕ) : ℚ) / (2 : ℕ)⌉ ∧ (ntiles 3 2 : ℤ) = ⌈((3 : ℕ) : ℚ) / (2 : ℕ)⌉) ∧
    (∀ x y, x < 5 → y < 3 → (tiles 5 3 2).countP (fun T => T.contains x y) = 1) ∧
    (∀ T ∈ tiles 5 3 2, ∀ x y, T.contains x y = true → x < 5 ∧ y < 3) ∧
    (∀ T ∈ tiles 5 3 2, T.x0 < T.x1 ∧ T.y0 < T.y1) :=
  tiles_partition 5 3 2 (by decide)

/-! ### Stores to the frame buffer -/

theorem flatMap_swap {α β γ : Type} (l₁ : List α) (l₂ : List β) (f : α → β → List γ) :
    (l₁.flatMap fun a => l₂.flatMap fun b => f a b).Perm
      (l₂.flatMap fun b => l₁.flatMap fun a => f a b) := by
  induction l₁ with
  | nil => simp
  | cons a l ih =>
    simp only [List.flatMap_cons]
    exact (List.Perm.append_left _ ih).trans (List.flatMap_append_perm l₂ _ _)

theorem row_indices (W y : Nat) :
    (List.range W).map (fun x => y * W + x) = List.range' (y * W) W := by
  rw [List.range_eq_range', List.map_add_range']
  simp

theorem seq_indices (W H : Nat) :
    ((List.range H).flatMap fun y => List.range' (y * W) W) = List.range (H * W) := by
  induction H with
  | zero => simp
  | succ H ih =>
    rw [List.range_succ, List.flatMap_append, ih, List.flatMap_singleton, Nat.add_mul,
      Nat.one_mul, List.range_eq_range', List.range_eq_range']
    have := List.range'_append_1 0 (H * W) W
    rw [Nat.zero_add] at this
    exact this.trans (by rw [Nat.add_comm])

theorem seq_writes_keys {α : Type} (sample : Nat → Nat → α) (W H : Nat) :
    (seq_writes sample W H).map Prod.fst = List.range (H * W) := by
  rw [← seq_indices, seq_writes, List.map_flatMap]
  congr 1
  funext y
  rw [List.map_map, ← row_indices]
  rfl

theorem tiled_writes_perm_seq {α : Type} (sample : Nat → Nat → α) (W H TS : Nat) (hTS : 0 < TS) :
    (tiled_writes sample W H TS (tileOrder W H TS)).Perm (seq_writes sample W H) := by
  have hband : ∀ ty,
      ((List.range (ntiles W TS)).flatMap fun tx =>
          tile_writes sample W (tileAt W H TS tx ty)).Perm
        ((List.range' (ty * TS) (min H (ty * TS + TS) - ty * TS)).flatMap fun y =>
          (List.range W).map fun x => (y * W + x, sample x y)) := by
    intro ty
    simp only [tile_writes, tileAt]
    refine (flatMap_swap (List.range (ntiles W TS))
      (List.range' (ty * TS) (min H (ty * TS + TS) - ty * TS))
      (fun tx y => (List.range' (tx * TS) (min W (tx * TS + TS) - tx * TS)).map
        fun x => (y * W + x, sample x y))).trans ?_
    apply List.Perm.of_eq
    congr 1
    funext y
    rw [← List.map_flatMap, chunks_cover W TS hTS]
  have h1 : tiled_writes sample W H TS (tileOrder W H TS)
      = (List.range (ntiles H TS)).flatMap fun ty =>
          (List.range (ntiles W TS)).flatMap fun tx =>
            tile_writes sample W (tileAt W H TS tx ty) := by
    simp only [tiled_writes, tileOrder, List.flatMap_assoc, List.flatMap_map]
  have h2 : seq_writes sample W H
      = (List.range (ntiles H TS)).flatMap fun ty =>
          (List.range' (ty * TS) (min H (ty * TS + TS) - ty * TS)).flatMap fun y =>
            (List.range W).map fun x => (y * W + x, sample x y) := by
    rw [← List.flatMap_assoc, chunks_cover H TS hTS]
    rfl
  rw [h1, h2]
  exact List.Perm.flatMap_left _ fun ty _ => hband ty

theorem store_length {α : Type} (ws : List (Nat × α)) (pixels : List α) :
    (store pixels ws).length = pixels.length := by
  induction ws generalizing pixels with
  | nil => rfl
  | cons w ws ih => simp only [store, List.foldl_cons] at ih ⊢; rw [ih]; simp

theorem store_getElem?_of_not_mem {α : Type} (ws : List (Nat × α)) (pixels : List α) (i : Nat)
    (hi : i ∉ ws.map Prod.fst) : (store pixels ws)[i]? = pixels[i]? := by
  induction ws generalizing pixels with
  | nil => rfl
  | cons w ws ih =>
    simp only [List.map_cons, List.mem_cons, not_or] at hi
    simp only [store, List.foldl_cons] at ih ⊢
    rw [ih _ hi.2, List.getElem?_set_ne (Ne.symm hi.1)]

theorem store_perm {α : Type} {ws₁ ws₂ : List (Nat × α)} (hp : ws₁.Perm ws₂)
    (hnd : (ws₁.map Prod.fst).Nodup) (pixels : List α) : store pixels ws₁ = store pixels ws₂ := by
  refine List.Perm.foldl_eq' hp ?_ pixels
  intro a ha b hb buf
  by_cases hab : a = b
  · rw [hab]
  · have hne : a.1 ≠ b.1 := fun h => hab (List.inj_on_of_nodup_map hnd ha hb h)
    exact List.set_comm a.2 b.2 buf hne

theorem store_getElem?_of_mem {α : Type} (ws : List (Nat × α)) (pixels : List α) (i : Nat) (v : α)
    (hnd : (ws.map Prod.fst).Nodup) (hmem : (i, v) ∈ ws) (hi : i < pixels.length) :
    (store pixels ws)[i]? = some v := by
  obtain ⟨l₁, l₂, rfl⟩ := List.append_of_mem hmem
  have hp : (l₁ ++ (i, v) :: l₂).Perm ((i, v) :: (l₁ ++ l₂)) := List.perm_middle
  rw [store_perm hp hnd pixels]
  have hnd2 := (hp.map Prod.fst).nodup_iff.1 hnd
  rw [List.map_cons, List.nodup_cons] at hnd2
  simp only [store, List.foldl_cons]
  have := store_getElem?_of_not_mem (l₁ ++ l₂) (pixels.set i v) i hnd2.1
  simp only [store] at this
  rw [this, List.getElem?_set_self hi]

theorem index_lt {W H x y : Nat} (hx : x < W) (hy : y < H) : y * W + x < H * W := by
  have h : (y + 1) * W ≤ H * W := Nat.mul_le_mul_right W hy
  rw [Nat.add_mul, Nat.one_mul] at h
  omega

theorem mem_seq_writes {α : Type} (sample : Nat → Nat → α) {W H x y : Nat} (hx : x < W)
    (hy : y < H) : (y * W + x, sample x y) ∈ seq_writes sample W H := by
  simp only [seq_writes, List.mem_flatMap, List.mem_map, List.mem_range]
  exact ⟨y, hy, x, hx, rfl⟩

theorem full_res_of_scale_one (cfg : AppConfig) (h : cfg.render_scale = 1) :
    full_res cfg = true := by
  simp only [full_res, render_s, clampf, h, lit_0_3f, lit_0_999f, decide_eq_true_eq]
  norm_num

/-- C4. In the full-resolution branch (taken when `render_scale = 1.0`), for
every `W`, `H`, tile size `TS > 0` (in particular `8 ≤ TS ≤ 64`), time `t` and
every order in which the tiles are processed, the buffer left by the tiled
traversal is the buffer left by the sequential row sweep; every entry
`pixels[y*W + x]` holds `sample_pixel(x, y, t)` and is stored exactly once by
either traversal.  The same buffer results from every interleaving of the
stores of the tiles, as when several threads work on tiles at once. -/
theorem tiled_frame_eq_sequential {α τ : Type} (sample_pixel : Nat → Nat → τ → α) (t : τ)
    (W H TS : Nat) (hTS : 0 < TS) (order : List (Nat × Nat))
    (hperm : order.Perm (tileOrder W H TS)) (pixels : List α) (hlen : pixels.length = W * H) :
    (∀ cfg : AppConfig, cfg.render_scale = 1 → full_res cfg = true) ∧
    store pixels (tiled_writes (fun x y => sample_pixel x y t) W H TS order)
      = store pixels (seq_writes (fun x y => sample_pixel x y t) W H) ∧
    (∀ x y, x < W → y < H →
      (store pixels (tiled_writes (fun x y => sample_pixel x y t) W H TS order))[y * W + x]?
        = some (sample_pixel x y t) ∧
      ((tiled_writes (fun x y => sample_pixel x y t) W H TS order).map Prod.fst).count
        (y * W + x) = 1 ∧
      ((seq_writes (fun x y => sample_pixel x y t) W H).map Prod.fst).count (y * W + x) = 1) ∧
    ∀ ws : List (Nat × α),
      ws.Perm (tiled_writes (fun x y => sample_pixel x y t) W H TS order) →
      store pixels ws = store pixels (seq_writes (fun x y => sample_pixel x y t) W H) := by
  have hp : (tiled_writes (fun x y => sample_pixel x y t) W H TS order).Perm
      (seq_writes (fun x y => sample_pixel x y t) W H) :=
    (List.Perm.flatMap_right _ hperm).trans (tiled_writes_perm_seq _ W H TS hTS)
  have hseq : ((seq_writes (fun x y => sample_pixel x y t) W H).map Prod.fst).Nodup := by
    rw [seq_writes_keys]; exact List.nodup_range _
  have hnd : ((tiled_writes (fun x y => sample_pixel x y t) W H TS order).map Prod.fst).Nodup :=
    ((hp.map Prod.fst).nodup_iff).2 hseq
  refine ⟨full_res_of_scale_one, store_perm hp hnd pixels, ?_, ?_⟩
  · intro x y hx hy
    have hm := mem_seq_writes (fun x y => sample_pixel x y t) hx hy
    have hm' := hp.mem_iff.2 hm
    have hidx : y * W + x < pixels.length := by
      rw [hlen, Nat.mul_comm W H]; exact index_lt hx hy
    refine ⟨store_getElem?_of_mem _ pixels _ _ hnd hm' hidx, ?_, ?_⟩
    · exact List.count_eq_one_of_mem hnd (List.mem_map_of_mem Prod.fst hm')
    · exact List.count_eq_one_of_mem hseq (List.mem_map_of_mem Prod.fst hm)
  · intro ws hws
    have hq := hws.trans hp
    exact store_perm hq (((hq.map Prod.fst).nodup_iff).2 hseq) pixels

theorem tiled_frame_eq_sequential_witness :
    (∀ cfg : AppConfig, cfg.render_scale = 1 → full_res cfg = true) ∧
    store (List.replicate 90 0)
        (tiled_writes (fun x y => x + 100 * y + 7) 10 9 8 [(1, 1), (0, 1), (1, 0), (0, 0)])
      = store (List.replicate 90 0) (seq_writes (fun x y => x + 100 * y + 7) 10 9) ∧
    (∀ x y, x < 10 → y < 9 →
      (store (List.replicate 90 0)
        (tiled_writes (fun x y => x + 100 * y + 7) 10 9 8
          [(1, 1), (0, 1), (1, 0), (0, 0)]))[y * 10 + x]? = some (x + 100 * y + 7) ∧
      ((tiled_writes (fun x y => x + 100 * y + 7) 10 9 8
          [(1, 1), (0, 1), (1, 0), (0, 0)]).map Prod.fst).count (y * 10 + x) = 1 ∧
      ((seq_writes (fun x y => x + 100 * y + 7) 10 9).map Prod.fst).count (y * 10 + x) = 1) ∧
    ∀ ws : List (Nat × Nat),
      ws.Perm (tiled_writes (fun x y => x + 100 * y + 7) 10 9 8
        [(1, 1), (0, 1), (1, 0), (0, 0)]) →
      store (List.replicate 90 0) ws
        = store (List.replicate 90 0) (seq_writes (fun x y => x + 100 * y + 7) 10 9) :=
  tiled_frame_eq_sequential (fun x y t => x + 100 * y + t) 7 10 9 8 (by decide)
    [(1, 1), (0, 1), (1, 0), (0, 0)] (by decide) (List.replicate 90 0) (by decide)

/-! ### Colour conversion -/

/-- C10. For every byte value `c`, `rgb_to_hsl(c, c, c)` takes the achromatic
return: hue 0, saturation 0, lightness `c/255`, and no division by `max - min`
(nor any other division after the test) is evaluated. -/
theorem rgb_to_hsl_achromatic (c : Nat) :
    rgb_to_hsl c c c = { h := 0, s := 0, l := c / 255, divisors := [] } := by
  simp only [rgb_to_hsl, fmax, fmin, lt_self_iff_false, if_false, if_true]
  congr 1
  ring

/-! ### Configuration -/

theorem clampi_isClamped (v lo hi : Int) (h : lo ≤ hi) :
    IsClamped lo hi v (AppConfig.clampi v lo hi) := by
  unfold IsClamped AppConfig.clampi
  refine ⟨fun h1 => ?_, fun h1 => ?_, fun h1 h2 => ?_⟩
  · rw [min_eq_right (by omega), max_eq_left (by omega)]
  · rw [min_eq_left (by omega), max_eq_right h]
  · rw [min_eq_right h2, max_eq_right h1]

theorem clampi_range (v lo hi : Int) (h : lo ≤ hi) :
    lo ≤ AppConfig.clampi v lo hi ∧ AppConfig.clampi v lo hi ≤ hi := by
  unfold AppConfig.clampi
  exact ⟨le_max_left _ _, max_le h (min_le_left _ _)⟩

/-- C14. For every chunk size in `1..512` the tile size of the frame loop is
`max(8, min(64, chunk))`; it lies in `[8, 64]` and is not zero. -/
theorem tile_size_eq_clamp (cfg : AppConfig) (h1 : 1 ≤ cfg.omp_chunk) (h2 : cfg.omp_chunk ≤ 512) :
    tile_size cfg = max 8 (min 64 cfg.omp_chunk) ∧
    IsClamped 8 64 cfg.omp_chunk (tile_size cfg) ∧
    8 ≤ tile_size cfg ∧ tile_size cfg ≤ 64 ∧ tile_size cfg ≠ 0 := by
  have _ := h2
  have e : tile_size cfg = AppConfig.clampi cfg.omp_chunk 8 64 := by
    unfold tile_size AppConfig.clampi
    rw [if_pos (by omega)]
  have r := clampi_range cfg.omp_chunk 8 64 (by norm_num)
  rw [e]
  refine ⟨rfl, clampi_isClamped _ _ _ (by norm_num), r.1, r.2, ?_⟩
  have := r.1
  omega

theorem tile_size_eq_clamp_witness :
    tile_size { omp_chunk := 512 } = max 8 (min 64 (AppConfig.omp_chunk { omp_chunk := 512 })) ∧
    IsClamped 8 64 (AppConfig.omp_chunk { omp_chunk := 512 }) (tile_size { omp_chunk := 512 }) ∧
    8 ≤ tile_size { omp_chunk := 512 } ∧ tile_size { omp_chunk := 512 } ≤ 64 ∧
    tile_size { omp_chunk := 512 } ≠ 0 :=
  tile_size_eq_clamp { omp_chunk := 512 } (by decide) (by decide)

theorem testBit_high {x : Nat} (hx : x < 2 ^ 32) {j : Nat} (hj : 32 ≤ j) :
    x.testBit j = false :=
  Nat.testBit_lt_two_pow (lt_of_lt_of_le hx (Nat.pow_le_pow_right (by norm_num) hj))

theorem unxorshift15_xorshift {x : Nat} (hx : x < 2 ^ 32) :
    unxorshift15 (x ^^^ (x >>> 15)) = x := by
  apply Nat.eq_of_testBit_eq
  intro i
  simp only [unxorshift15, Nat.testBit_xor, Nat.testBit_shiftRight]
  have e1 : 15 + (15 + i) = 30 + i := by omega
  have e2 : x.testBit (15 + (30 + i)) = false := testBit_high hx (by omega)
  rw [e1, e2]
  cases x.testBit i <;> cases x.testBit (15 + i) <;> cases x.testBit (30 + i) <;> rfl

theorem unxorshift13_xorshift {x : Nat} (hx : x < 2 ^ 32) :
    unxorshift13 (x ^^^ (x >>> 13)) = x := by
  apply Nat.eq_of_testBit_eq
  intro i
  simp only [unxorshift13, Nat.testBit_xor, Nat.testBit_shiftRight]
  have e1 : 13 + (13 + i) = 26 + i := by omega
  have e2 : x.testBit (13 + (26 + i)) = false := testBit_high hx (by omega)
  rw [e1, e2]
  cases x.testBit i <;> cases x.testBit (13 + i) <;> cases x.testBit (26 + i) <;> rfl

theorem mul_inv_u32 {x : Nat} (hx : x < 2 ^ 32) (c d : Nat) (hcd : c * d % 2 ^ 32 = 1) :
    u32 (u32 (x * c) * d) = x := by
  unfold u32
  rw [Nat.mod_mul_mod, Nat.mul_assoc, Nat.mul_mod, hcd, Nat.mul_one, Nat.mod_mod,
    Nat.mod_eq_of_lt hx]

theorem hash_u32_inv_hash_u32 (cfg : AppConfig) (hs : cfg.seed < 2 ^ 32) {x : Nat}
    (hx : x < 2 ^ 32) : hash_u32_inv cfg (hash_u32 cfg x) = x := by
  have h0 : x ^^^ cfg.seed < 2 ^ 32 := Nat.xor_lt_two_pow hx hs
  simp only [hash_u32, hash_u32_inv]
  rw [u32_of_lt h0, u32_of_lt (xor_shiftRight_lt 15 (u32_lt _)),
    u32_of_lt (xor_shiftRight_lt 13 (u32_lt _)), unxorshift13_xorshift (u32_lt _),
    mul_inv_u32 (xor_shiftRight_lt 15 (u32_lt _)) _ _ (by norm_num),
    unxorshift15_xorshift (u32_lt _),
    mul_inv_u32 h0 _ _ (by norm_num), Nat.xor_assoc, Nat.xor_self, Nat.xor_zero]

/-- C16. For every 32-bit seed, `hash_u32` is a bijection on the 32-bit values:
it is injective there, and every 32-bit value is the hash of a 32-bit value. -/
theorem hash_u32_bijective (cfg : AppConfig) (hs : cfg.seed < 2 ^ 32) :
    (∀ x y, x < 2 ^ 32 → y < 2 ^ 32 → hash_u32 cfg x = hash_u32 cfg y → x = y) ∧
    (∀ z, z < 2 ^ 32 → ∃ x, x < 2 ^ 32 ∧ hash_u32 cfg x = z) := by
  have hinj : ∀ x y, x < 2 ^ 32 → y < 2 ^ 32 → hash_u32 cfg x = hash_u32 cfg y → x = y := by
    intro x y hx hy h
    have := congrArg (hash_u32_inv cfg) h
    rwa [hash_u32_inv_hash_u32 cfg hs hx, hash_u32_inv_hash_u32 cfg hs hy] at this
  refine ⟨hinj, ?_⟩
  have hlt : ∀ x, hash_u32 cfg x < 2 ^ 32 := fun x => by
    simp only [hash_u32]; exact u32_lt _
  let f : Fin (2 ^ 32) → Fin (2 ^ 32) := fun x => ⟨hash_u32 cfg x.1, hlt x.1⟩
  have finj : Function.Injective f := by
    intro a b hab
    exact Fin.ext (hinj a.1 b.1 a.2 b.2 (congrArg Fin.val hab))
  have fsurj : Function.Surjective f := Finite.injective_iff_surjective.1 finj
  intro z hz
  obtain ⟨x, hx⟩ := fsurj ⟨z, hz⟩
  exact ⟨x.1, x.2, congrArg Fin.val hx⟩

theorem hash_u32_bijective_witness :
    (∀ x y, x < 2 ^ 32 → y < 2 ^ 32 →
      hash_u32 { seed := 42 } x = hash_u32 { seed := 42 } y → x = y) ∧
    (∀ z, z < 2 ^ 32 → ∃ x, x < 2 ^ 32 ∧ hash_u32 { seed := 42 } x = z) :=
  hash_u32_bijective { seed := 42 } (by decide)

/-! ### Ranges of `rgb_to_hsl` -/

theorem rgb_to_hsl_eq_channels (R G B : Nat) :
    rgb_to_hsl R G B = hsl_of_channels (R / 255) (G / 255) (B / 255) := rfl

theorem fmax_eq_max (a b : ℚ) : fmax a b = max a b := by
  unfold fmax
  split_ifs with h
  · exact (max_eq_right h.le).symm
  · exact (max_eq_left (not_lt.1 h)).symm

theorem fmin_eq_min (a b : ℚ) : fmin a b = min a b := by
  unfold fmin
  split_ifs with h
  · exact (min_eq_right h.le).symm
  · exact (min_eq_left (not_lt.1 h)).symm

theorem ratio_bounds {u d : ℚ} (hd : 0 < d) (h1 : -d ≤ u) (h2 : u ≤ d) :
    -1 ≤ u / d ∧ u / d ≤ 1 := by
  constructor
  · rw [le_div_iff₀ hd]; linarith
  · rw [div_le_iff₀ hd]; linarith

theorem hsl_of_channels_ranges (r g b : ℚ) (hr0 : 0 ≤ r) (hr1 : r ≤ 1) (hg0 : 0 ≤ g)
    (hg1 : g ≤ 1) (hb0 : 0 ≤ b) (hb1 : b ≤ 1) :
    (∀ q ∈ (hsl_of_channels r g b).divisors, 0 < q) ∧
    (0 ≤ (hsl_of_channels r g b).h ∧ (hsl_of_channels r g b).h < 360) ∧
    (0 ≤ (hsl_of_channels r g b).s ∧ (hsl_of_channels r g b).s ≤ 1) ∧
    (0 ≤ (hsl_of_channels r g b).l ∧ (hsl_of_channels r g b).l ≤ 1) := by
  simp only [hsl_of_channels, fmax_eq_max, fmin_eq_min]
  have m1 : r ≤ max r (max g b) := le_max_left _ _
  have m2 : g ≤ max r (max g b) := le_trans (le_max_left _ _) (le_max_right _ _)
  have m3 : b ≤ max r (max g b) := le_trans (le_max_right _ _) (le_max_right _ _)
  have n1 : min r (min g b) ≤ r := min_le_left _ _
  have n2 : min r (min g b) ≤ g := le_trans (min_le_right _ _) (min_le_left _ _)
  have n3 : min r (min g b) ≤ b := le_trans (min_le_right _ _) (min_le_right _ _)
  have mx1 : max r (max g b) ≤ 1 := max_le hr1 (max_le hg1 hb1)
  have mn0 : 0 ≤ min r (min g b) := le_min hr0 (le_min hg0 hb0)
  generalize max r (max g b) = mx at *
  generalize min r (min g b) = mn at *
  by_cases hm : mx = mn
  · rw [if_pos hm]
    subst hm
    refine ⟨by simp, ⟨le_refl _, by norm_num⟩, ⟨le_refl _, by norm_num⟩, ?_, ?_⟩ <;>
      simp only <;> linarith
  · rw [if_neg hm]
    have hd : 0 < mx - mn := by
      rcases lt_or_eq_of_le (le_trans n1 m1) with h | h
      · linarith
      · exact absurd h.symm hm
    simp only
    refine ⟨?_, ?_, ?_, ?_⟩
    · intro q hq
      simp only [List.mem_cons, List.mem_singleton, List.not_mem_nil, or_false] at hq
      rcases hq with rfl | rfl
      · split_ifs <;> linarith
      · exact hd
    · have q1 := ratio_bounds hd (u := g - b) (by linarith) (by linarith)
      have q2 := ratio_bounds hd (u := b - r) (by linarith) (by linarith)
      have q3 := ratio_bounds hd (u := r - g) (by linarith) (by linarith)
      split_ifs with c1 c2 c3
      · have : (g - b) / (mx - mn) < 0 := div_neg_of_neg_of_pos (by linarith) hd
        constructor <;> linarith [q1.1]
      · have : 0 ≤ (g - b) / (mx - mn) := div_nonneg (by linarith) hd.le
        constructor <;> linarith [q1.2]
      · constructor <;> linarith [q2.1, q2.2]
      · constructor <;> linarith [q3.1, q3.2]
    · split_ifs with c
      · have hpos : 0 < 2 - mx - mn := by linarith
        exact ⟨div_nonneg hd.le hpos.le, by rw [div_le_iff₀ hpos]; linarith⟩
      · have hpos : 0 < mx + mn := by linarith
        exact ⟨div_nonneg hd.le hpos.le, by rw [div_le_iff₀ hpos]; linarith⟩
    · constructor <;> linarith

theorem channels_max (R G B : Nat) :
    fmax ((R : ℚ) / 255) (fmax ((G : ℚ) / 255) ((B : ℚ) / 255))
      = ((max R (max G B) : ℕ) : ℚ) / 255 := by
  rw [fmax_eq_max, fmax_eq_max, Nat.cast_max, Nat.cast_max,
    ← max_div_div_right (by norm_num), ← max_div_div_right (by norm_num)]

theorem channels_min (R G B : Nat) :
    fmin ((R : ℚ) / 255) (fmin ((G : ℚ) / 255) ((B : ℚ) / 255))
      = ((min R (min G B) : ℕ) : ℚ) / 255 := by
  rw [fmin_eq_min, fmin_eq_min, Nat.cast_min, Nat.cast_min,
    ← min_div_div_right (by norm_num), ← min_div_div_right (by norm_num)]

theorem channel_unit (R : Nat) (hR : R ≤ 255) : (0 : ℚ) ≤ (R : ℚ) / 255 ∧ (R : ℚ) / 255 ≤ 1 := by
  have h : (R : ℚ) ≤ 255 := by exact_mod_cast hR
  have h0 : (0 : ℚ) ≤ R := Nat.cast_nonneg R
  constructor
  · positivity
  · rw [div_le_iff₀ (by norm_num)]; linarith

/-- C18. For every RGB byte triple that is not achromatic, `rgb_to_hsl` divides
by exactly two numbers, `2 - max - min` (lightness above 0.5) or `max + min`
(otherwise), and `max - min`, and both are non-zero; for every byte triple
`0 ≤ hue < 360`, `0 ≤ saturation ≤ 1` and `0 ≤ lightness ≤ 1`. -/
theorem rgb_to_hsl_divisors_ranges (R G B : Nat) (hR : R ≤ 255) (hG : G ≤ 255) (hB : B ≤ 255) :
    (¬ (R = G ∧ G = B) →
      (rgb_to_hsl R G B).divisors =
        [if (rgb_to_hsl R G B).l > 1 / 2
          then 2 - ((max R (max G B) : ℕ) : ℚ) / 255 - ((min R (min G B) : ℕ) : ℚ) / 255
          else ((max R (max G B) : ℕ) : ℚ) / 255 + ((min R (min G B) : ℕ) : ℚ) / 255,
         ((max R (max G B) : ℕ) : ℚ) / 255 - ((min R (min G B) : ℕ) : ℚ) / 255] ∧
      ∀ q ∈ (rgb_to_hsl R G B).divisors, q ≠ 0) ∧
    (0 ≤ (rgb_to_hsl R G B).h ∧ (rgb_to_hsl R G B).h < 360) ∧
    (0 ≤ (rgb_to_hsl R G B).s ∧ (rgb_to_hsl R G B).s ≤ 1) ∧
    (0 ≤ (rgb_to_hsl R G B).l ∧ (rgb_to_hsl R G B).l ≤ 1) := by
  have hr := channel_unit R hR
  have hg := channel_unit G hG
  have hb := channel_unit B hB
  have key := hsl_of_channels_ranges _ _ _ hr.1 hr.2 hg.1 hg.2 hb.1 hb.2
  rw [← rgb_to_hsl_eq_channels] at key
  refine ⟨fun hne => ⟨?_, fun q hq => (key.1 q hq).ne'⟩, key.2⟩
  have hmm : ((max R (max G B) : ℕ) : ℚ) / 255 ≠ ((min R (min G B) : ℕ) : ℚ) / 255 := by
    intro h
    have h' : ((max R (max G B) : ℕ) : ℚ) = ((min R (min G B) : ℕ) : ℚ) :=
      (div_left_inj' (by norm_num)).1 h
    have h'' : max R (max G B) = min R (min G B) := by exact_mod_cast h'
    apply hne
    omega
  simp only [rgb_to_hsl, channels_max, channels_min, if_neg hmm]

theorem rgb_to_hsl_divisors_ranges_witness :
    (¬ (10 = 200 ∧ 200 = 30) →
      (rgb_to_hsl 10 200 30).divisors =
        [if (rgb_to_hsl 10 200 30).l > 1 / 2
          then 2 - ((max 10 (max 200 30) : ℕ) : ℚ) / 255 - ((min 10 (min 200 30) : ℕ) : ℚ) / 255
          else ((max 10 (max 200 30) : ℕ) : ℚ) / 255 + ((min 10 (min 200 30) : ℕ) : ℚ) / 255,
         ((max 10 (max 200 30) : ℕ) : ℚ) / 255 - ((min 10 (min 200 30) : ℕ) : ℚ) / 255] ∧
      ∀ q ∈ (rgb_to_hsl 10 200 30).divisors, q ≠ 0) ∧
    (0 ≤ (rgb_to_hsl 10 200 30).h ∧ (rgb_to_hsl 10 200 30).h < 360) ∧
    (0 ≤ (rgb_to_hsl 10 200 30).s ∧ (rgb_to_hsl 10 200 30).s ≤ 1) ∧
    (0 ≤ (rgb_to_hsl 10 200 30).l ∧ (rgb_to_hsl 10 200 30).l ≤ 1) :=
  rgb_to_hsl_divisors_ranges 10 200 30 (by decide) (by decide) (by decide)

/-! ### Hue wrapping -/

theorem to_int_of_nonneg {v : ℚ} (h : 0 ≤ v) : to_int v = ⌊v⌋ := if_pos h

theorem to_int_nonneg {v : ℚ} (h : 0 ≤ v) : 0 ≤ to_int v := by
  rw [to_int_of_nonneg h]; exact Int.floor_nonneg.2 h

theorem lowres_dim_pos (W : Int) (s : ℚ) : 1 ≤ lowres_dim W s := le_max_left _ _

theorem src_coord_bounds {W : Int} {s : ℚ} (hW : 1 ≤ W) (hs : 0 < s) {sx : Int} (hsx : 0 ≤ sx) :
    0 ≤ src_coord W s sx ∧ src_coord W s sx < W := by
  have h0 : (0 : ℚ) ≤ ((sx : ℚ) + 1 / 2) / s := by
    have : (0 : ℚ) ≤ sx := by exact_mod_cast hsx
    apply div_nonneg _ hs.le
    linarith
  unfold src_coord
  exact ⟨le_min (by omega) (to_int_nonneg h0), lt_of_le_of_lt (min_le_left _ _) (by omega)⟩

theorem low_coord_bounds {SW : Int} {s : ℚ} (hSW : 1 ≤ SW) (hs : 0 ≤ s) {x : Int} (hx : 0 ≤ x) :
    0 ≤ low_coord SW s x ∧ low_coord SW s x < SW := by
  have h0 : (0 : ℚ) ≤ (x : ℚ) * s := by
    have : (0 : ℚ) ≤ x := by exact_mod_cast hx
    exact mul_nonneg this hs
  unfold low_coord
  exact ⟨le_min (by omega) (to_int_nonneg h0), lt_of_le_of_lt (min_le_left _ _) (by omega)⟩

theorem lowres_index_bounds {SW SH sx sy : Int} (h0 : 0 ≤ sx) (h1 : sx < SW) (h2 : 0 ≤ sy)
    (h3 : sy < SH) : 0 ≤ sy * SW + sx ∧ sy * SW + sx < SW * SH := by
  have hSW : 0 ≤ SW := by omega
  have a : 0 ≤ sy * SW := mul_nonneg h2 hSW
  have b : (sy + 1) * SW ≤ SH * SW := mul_le_mul_of_nonneg_right (by omega) hSW
  constructor
  · omega
  · nlinarith

theorem render_s_of_preClamped {cfg : AppConfig} (hc : PreClamped cfg) :
    render_s cfg = cfg.render_scale := by
  obtain ⟨_, _, _, _, _, _, hr, _⟩ := hc
  unfold render_s clampf
  rw [if_neg (not_lt.2 hr.1), if_neg (not_lt.2 hr.2)]

theorem render_s_pos {cfg : AppConfig} (hc : PreClamped cfg) : 0 < render_s cfg := by
  rw [render_s_of_preClamped hc]
  obtain ⟨_, _, _, _, _, _, hr, _⟩ := hc
  exact lt_of_lt_of_le (by norm_num [lit_0_3f]) hr.1

/-- C17. For every pre-clamped configuration with `render_scale < 1`, every
buffer index formed in the low-resolution branch is in bounds: `SW ≥ 1` and
`SH ≥ 1`; for `0 ≤ sx < SW` and `0 ≤ sy < SH` the source coordinates satisfy
`0 ≤ XX < W`, `0 ≤ YY < H` and the write index `sy*SW + sx` lies in
`[0, SW*SH)`; for `0 ≤ x < W` and `0 ≤ y < H` the upscale reads at
`0 ≤ min(SW-1, (int)(x*s)) < SW` and `0 ≤ min(SH-1, (int)(y*s)) < SH`, an index
in `[0, SW*SH)`. -/
theorem lowres_indices_in_bounds (cfg : AppConfig) (hc : PreClamped cfg)
    (hs : cfg.render_scale < 1) :
    (1 ≤ lowres_dim cfg.width (render_s cfg) ∧ 1 ≤ lowres_dim cfg.height (render_s cfg)) ∧
    (∀ sx sy : Int, 0 ≤ sx → sx < lowres_dim cfg.width (render_s cfg) →
      0 ≤ sy → sy < lowres_dim cfg.height (render_s cfg) →
      (0 ≤ src_coord cfg.width (render_s cfg) sx ∧
        src_coord cfg.width (render_s cfg) sx < cfg.width) ∧
      (0 ≤ src_coord cfg.height (render_s cfg) sy ∧
        src_coord cfg.height (render_s cfg) sy < cfg.height) ∧
      (0 ≤ sy * lowres_dim cfg.width (render_s cfg) + sx ∧
        sy * lowres_dim cfg.width (render_s cfg) + sx
          < lowres_dim cfg.width (render_s cfg) * lowres_dim cfg.height (render_s cfg))) ∧
    (∀ x y : Int, 0 ≤ x → x < cfg.width → 0 ≤ y → y < cfg.height →
      (0 ≤ low_coord (lowres_dim cfg.width (render_s cfg)) (render_s cfg) x ∧
        low_coord (lowres_dim cfg.width (render_s cfg)) (render_s cfg) x
          < lowres_dim cfg.width (render_s cfg)) ∧
      (0 ≤ low_coord (lowres_dim cfg.height (render_s cfg)) (render_s cfg) y ∧
        low_coord (lowres_dim cfg.height (render_s cfg)) (render_s cfg) y
          < lowres_dim cfg.height (render_s cfg)) ∧
      (0 ≤ low_coord (lowres_dim cfg.height (render_s cfg)) (render_s cfg) y
            * lowres_dim cfg.width (render_s cfg)
          + low_coord (lowres_dim cfg.width (render_s cfg)) (render_s cfg) x ∧
        low_coord (lowres_dim cfg.height (render_s cfg)) (render_s cfg) y
            * lowres_dim cfg.width (render_s cfg)
          + low_coord (lowres_dim cfg.width (render_s cfg)) (render_s cfg) x
          < lowres_dim cfg.width (render_s cfg) * lowres_dim cfg.height (render_s cfg))) := by
  have _ := hs
  have hpos := render_s_pos hc
  have hW : (1 : Int) ≤ cfg.width := le_trans (by norm_num) hc.1
  have hH : (1 : Int) ≤ cfg.height := le_trans (by norm_num) hc.2.1
  refine ⟨⟨lowres_dim_pos _ _, lowres_dim_pos _ _⟩, ?_, ?_⟩
  · intro sx sy h0 h1 h2 h3
    exact ⟨src_coord_bounds hW hpos h0, src_coord_bounds hH hpos h2,
      lowres_index_bounds h0 h1 h2 h3⟩
  · intro x y h0 _ h2 _
    have bx := low_coord_bounds (lowres_dim_pos cfg.width (render_s cfg)) hpos.le h0
    have bY := low_coord_bounds (lowres_dim_pos cfg.height (render_s cfg)) hpos.le h2
    exact ⟨bx, bY, lowres_index_bounds bx.1 bx.2 bY.1 bY.2⟩

theorem lowres_indices_in_bounds_witness :
    (1 ≤ lowres_dim (AppConfig.width { render_scale := 1 / 2 }) (render_s { render_scale := 1 / 2 }) ∧ 1 ≤ lowres_dim (AppConfig.height { render_scale := 1 / 2 }) (render_s { render_scale := 1 / 2 })) ∧
    (∀ sx sy : Int, 0 ≤ sx → sx < lowres_dim (AppConfig.width { render_scale := 1 / 2 }) (render_s { render_scale := 1 / 2 }) →
      0 ≤ sy → sy < lowres_dim (AppConfig.height { render_scale := 1 / 2 }) (render_s { render_scale := 1 / 2 }) →
      (0 ≤ src_coord (AppConfig.width { render_scale := 1 / 2 }) (render_s { render_scale := 1 / 2 }) sx ∧
        src_coord (AppConfig.width { render_scale := 1 / 2 }) (render_s { render_scale := 1 / 2 }) sx < (AppConfig.width { render_scale := 1 / 2 })) ∧
      (0 ≤ src_coord (AppConfig.height { render_scale := 1 / 2 }) (render_s { render_scale := 1 / 2 }) sy ∧
        src_coord (AppConfig.height { render_scale := 1 / 2 }) (render_s { render_scale := 1 / 2 }) sy < (AppConfig.height { render_scale := 1 / 2 })) ∧
      (0 ≤ sy * lowres_dim (AppConfig.width { render_scale := 1 / 2 }) (render_s { render_scale := 1 / 2 }) + sx ∧
        sy * lowres_dim (AppConfig.width { render_scale := 1 / 2 }) (render_s { render_scale := 1 / 2 }) + sx
          < lowres_dim (AppConfig.width { render_scale := 1 / 2 }) (render_s { render_scale := 1 / 2 }) * lowres_dim (AppConfig.height { render_scale := 1 / 2 }) (render_s { render_scale := 1 / 2 }))) ∧
    (∀ x y : Int, 0 ≤ x → x < (AppConfig.width { render_scale := 1 / 2 }) → 0 ≤ y → y < (AppConfig.height { render_scale := 1 / 2 }) →
      (0 ≤ low_coord (lowres_dim (AppConfig.width { render_scale := 1 / 2 }) (render_s { render_scale := 1 / 2 })) (render_s { render_scale := 1 / 2 }) x ∧
        low_coord (lowres_dim (AppConfig.width { render_scale := 1 / 2 }) (render_s { render_scale := 1 / 2 })) (render_s { render_scale := 1 / 2 }) x
          < lowres_dim (AppConfig.width { render_scale := 1 / 2 }) (render_s { render_scale := 1 / 2 })) ∧
      (0 ≤ low_coord (lowres_dim (AppConfig.height { render_scale := 1 / 2 }) (render_s { render_scale := 1 / 2 })) (render_s { render_scale := 1 / 2 }) y ∧
        low_coord (lowres_dim (AppConfig.height { render_scale := 1 / 2 }) (render_s { render_scale := 1 / 2 })) (render_s { render_scale := 1 / 2 }) y
          < lowres_dim (AppConfig.height { render_scale := 1 / 2 }) (render_s { render_scale := 1 / 2 })) ∧
      (0 ≤ low_coord (lowres_dim (AppConfig.height { render_scale := 1 / 2 }) (render_s { render_scale := 1 / 2 })) (render_s { render_scale := 1 / 2 }) y
            * lowres_dim (AppConfig.width { render_scale := 1 / 2 }) (render_s { render_scale := 1 / 2 })
          + low_coord (lowres_dim (AppConfig.width { render_scale := 1 / 2 }) (render_s { render_scale := 1 / 2 })) (render_s { render_scale := 1 / 2 }) x ∧
        low_coord (lowres_dim (AppConfig.height { render_scale := 1 / 2 }) (render_s { render_scale := 1 / 2 })) (render_s { render_scale := 1 / 2 }) y
            * lowres_dim (AppConfig.width { render_scale := 1 / 2 }) (render_s { render_scale := 1 / 2 })
          + low_coord (lowres_dim (AppConfig.width { render_scale := 1 / 2 }) (render_s { render_scale := 1 / 2 })) (render_s { render_scale := 1 / 2 }) x
          < lowres_dim (AppConfig.width { render_scale := 1 / 2 }) (render_s { render_scale := 1 / 2 }) * lowres_dim (AppConfig.height { render_scale := 1 / 2 }) (render_s { render_scale := 1 / 2 }))) :=
  lowres_indices_in_bounds { render_scale := 1 / 2 }
    (by norm_num [PreClamped, lit_0_05f, lit_0_95f, lit_0_3f, schedules, palettes])
    (by norm_num)

/-! ### The frame -/

end Nebula
